import Mathlib

/-!
Verification of the log-ingestion and flattening pipeline (get_data.py /
process_data.py) against its specification.

The Python sources are shallowly embedded:

* JSON values (the cells of a pandas DataFrame holding decoded log
  records) become the inductive type JVal; a DataFrame row is an
  association list from column names to values (a missing key reads as
  null / NaN), and a DataFrame is a list of rows.  pandas concat along
  axis 0 with ignore_index is list append; concat along axis 1 aligns
  rows positionally, padding missing rows of the left block with NaN
  for the left block's columns.
* pandas explode, json_normalize and the flattening functions
  flatten_json / recursively_flatten are translated operation by
  operation from process_data.py.
* Python optional string arguments become Option String; Python
  truthiness of such an argument (None and the empty string are falsy)
  is optTruthy.  Python int() is pyInt, which fails (models the
  ValueError) on strings that are not nonempty digit sequences; the
  values fed to it by this program are date strings.
* Fallible code returns Except Unit; raising an exception is the
  error case.
-/

/-- A JSON value as decoded from the logs and stored in a DataFrame cell.
vnull stands for both JSON null and pandas NaN; vlist covers Python
lists and numpy arrays (which the parquet round trip produces). -/
inductive JVal where
  | vnull : JVal
  | vbool : Bool → JVal
  | vint : Int → JVal
  | vstr : String → JVal
  | vlist : List JVal → JVal
  | vdict : List (String × JVal) → JVal

open JVal

/-- A DataFrame row: an association list from column names to cell
values.  A key that is absent reads as null (pandas NaN). -/
abbrev Row := List (String × JVal)

/-- A DataFrame: a list of rows (the index is positional, as after
ignore_index = True). -/
abbrev DF := List Row

/-- Read the cell of a row at a column; a missing column is NaN. -/
def rowGet (r : Row) (k : String) : JVal :=
  match r with
  | [] => vnull
  | (k1, v) :: t => if k1 = k then v else rowGet t k

/-- Replace the value at the first occurrence of a key (used by explode
to substitute a list element for the list). -/
def rowSet (r : Row) (k : String) (v : JVal) : Row :=
  match r with
  | [] => []
  | (k1, v1) :: t => if k1 = k then (k1, v) :: t else (k1, v1) :: rowSet t k v

/-- Drop a column from a row; models DataFrame.drop(columns=[k]), which
removes every column with that label. -/
def rowErase (r : Row) (k : String) : Row :=
  r.filter (fun p => p.1 ≠ k)

/-- Numeric value of a list of decimal digit characters. -/
def charsToNat (cs : List Char) : Nat :=
  cs.foldl (fun a c => a * 10 + (c.toNat - 48)) 0

/-- Numeric value of a decimal digit string. -/
def strToNat (s : String) : Nat :=
  charsToNat s.data

/-- Python truthiness of an optional string argument: None and the
empty string are falsy. -/
def optTruthy (o : Option String) : Bool :=
  match o with
  | none => false
  | some s => s ≠ ""

/-- Python int() as used on the date strings of this program: succeeds
on a nonempty string of decimal digits, raises ValueError (the error
case) otherwise — in particular on the empty string. -/
def pyInt (s : String) : Except Unit Int :=
  if s.length ≠ 0 ∧ s.data.all Char.isDigit then .ok (strToNat s : Nat) else .error ()

/-- Match of the regex y=(\d,4)/m=(\d,2)/d=(\d,2) anchored at the start
of the character list (get_data.py line 66); on success returns the
concatenation YYYYMMDD of the three groups. -/
def patAt (cs : List Char) : Option String :=
  match cs with
  | 'y' :: '=' :: y1 :: y2 :: y3 :: y4 :: '/' :: 'm' :: '=' :: m1 :: m2 ::
      '/' :: 'd' :: '=' :: d1 :: d2 :: _ =>
    if y1.isDigit && y2.isDigit && y3.isDigit && y4.isDigit &&
        m1.isDigit && m2.isDigit && d1.isDigit && d2.isDigit then
      some (String.mk [y1, y2, y3, y4, m1, m2, d1, d2])
    else none
  | _ => none

/-- re.search: try the pattern at every position, leftmost match wins. -/
def searchPat (cs : List Char) : Option String :=
  match cs with
  | [] => none
  | _ :: t =>
    match patAt cs with
    | some s => some s
    | none => searchPat t

/-- get_data.py extract_date_from_name: search the blob name for the
date pattern; return YYYYMMDD on a match and the empty string (after a
logged warning) otherwise. -/
def extract_date_from_name (nm : String) : String :=
  (searchPat nm.data).getD ""

/-- The date-range condition of the ingestion driver, get_data.py lines
166-167, with Python left-to-right short-circuit evaluation made
explicit in the Except monad: a falsy bound passes its side without
evaluating int(date); a truthy bound forces int(date), which raises on
an empty date string. -/
def blobFilterCond (date : String) (startDate endDate : Option String) :
    Except Unit Bool := do
  let left ← if optTruthy startDate then do
      let d ← pyInt date
      let s ← pyInt (startDate.getD "")
      pure (decide (s ≤ d))
    else pure true
  if left then
    if optTruthy endDate then do
      let d ← pyInt date
      let e ← pyInt (endDate.getD "")
      pure (decide (d ≤ e))
    else pure true
  else pure false

/-- One routing step of the ingestion driver for a single blob: extract
the date from the name, then evaluate the range filter on it. -/
def blobStep (nm : String) (startDate endDate : Option String) : Except Unit Bool :=
  blobFilterCond (extract_date_from_name nm) startDate endDate

/-- Gregorian leap-year rule, as implemented by datetime. -/
def isLeapYear (y : Nat) : Bool :=
  (y % 4 == 0 && y % 100 != 0) || y % 400 == 0

/-- Days in a month of the proleptic Gregorian calendar. -/
def daysInMonth (y m : Nat) : Nat :=
  if m = 2 then (if isLeapYear y then 29 else 28)
  else if m = 4 ∨ m = 6 ∨ m = 9 ∨ m = 11 then 30
  else 31

/-- process_data.py is_valid_date_format: the string must match
^\d,8$ and datetime.strptime(s, yyyymmdd) must accept it, i.e. the
year is at least 1 (datetime.MINYEAR), the month is 1..12 and the day
fits the month. -/
def is_valid_date_format (s : String) : Bool :=
  if s.length = 8 && s.data.all Char.isDigit then
    let y := charsToNat (s.data.take 4)
    let m := charsToNat ((s.data.drop 4).take 2)
    let d := charsToNat (s.data.drop 6)
    decide (1 ≤ y) && decide (1 ≤ m) && decide (m ≤ 12) &&
      decide (1 ≤ d) && decide (d ≤ daysInMonth y m)
  else false

/-- The date-range condition of the partition merger, process_data.py
lines 84-85; date is the integer value of an already validated 8-digit
directory name, the bounds keep Python truthiness. -/
def mergerKeep (date : Nat) (startDate endDate : Option String) : Bool :=
  (!optTruthy startDate || decide (strToNat (startDate.getD "") ≤ date)) &&
    (!optTruthy endDate || decide (date ≤ strToNat (endDate.getD "")))

/-- Does the string end with the given suffix? -/
def strEndsWith (s suf : String) : Bool :=
  suf.data.reverse.isPrefixOf s.data.reverse

/-- os.path.basename of a slash-separated path: the characters after
the last slash. -/
def basename (p : String) : String :=
  String.mk (p.data.foldl (fun acc c => if c = '/' then [] else acc ++ [c]) [])

/-- process_data.py find_parquet_files over a modelled os.walk result:
a list of pairs of a directory path and the plain files inside it.
Malformed truthy bounds fail validation and return the empty list;
otherwise every .parquet file whose directory basename is a valid date
inside the range is collected. -/
def find_parquet_files (walk : List (String × List String))
    (startDate endDate : Option String) : List String :=
  if optTruthy startDate && !is_valid_date_format (startDate.getD "") then []
  else if optTruthy endDate && !is_valid_date_format (endDate.getD "") then []
  else
    walk.foldl (fun acc rf =>
      acc ++ (rf.2.filter (fun f =>
        strEndsWith f ".parquet" && is_valid_date_format (basename rf.1) &&
          mergerKeep (strToNat (basename rf.1)) startDate endDate)).map
        (fun f => rf.1 ++ "/" ++ f)) []

/-- get_data.py lines 181-191: the bounded retry loop around the blob
download.  fetch gives the outcome of each 0-indexed attempt; the
result is the fetched value or the propagated failure, the list of
backoff sleeps performed, and the number of fetch attempts made.
The unreachable fall-through when maxRetries = 0 (the Python loop body
would never define blob_data) is modelled as a failure with no
attempts. -/
def retryLoop (fetch : Nat → Option α) (maxRetries attempt : Nat) :
    Except Unit α × List Nat × Nat :=
  if attempt < maxRetries then
    match fetch attempt with
    | some v => (.ok v, [], 1)
    | none =>
      if attempt < maxRetries - 1 then
        let r := retryLoop fetch maxRetries (attempt + 1)
        (r.1, 2 ^ attempt :: r.2.1, r.2.2 + 1)
      else (.error (), [], 1)
  else (.error (), [], 0)
termination_by maxRetries - attempt
decreasing_by omega

/-- The retrying fetcher: run the retry loop from attempt 0. -/
def fetchWithRetry (fetch : Nat → Option α) (maxRetries : Nat) :
    Except Unit α × List Nat × Nat :=
  retryLoop fetch maxRetries 0

/-- The default maximum attempt count of download_save_json_logs. -/
def defaultMaxRetries : Nat := 3

/-- Is a cell a list or numpy array (the isinstance check of
process_data.py lines 143 and 151)? -/
def isVList (v : JVal) : Bool :=
  match v with
  | vlist _ => true
  | _ => false

/-- Is a cell a nested record (Python dict)? -/
def isVDict (v : JVal) : Bool :=
  match v with
  | vdict _ => true
  | _ => false

mutual

/-- One field of pd.json_normalize: a nested dict is recursed into with
the key joined by a dot, every other value is kept as a single cell. -/
def normVal (pre k : String) (v : JVal) : Row :=
  match v with
  | .vdict fs => normFields (pre ++ k ++ ".") fs
  | _ => [(pre ++ k, v)]

/-- pd.json_normalize of a record: the single resulting row, with all
nested-dict paths flattened into dot-separated column names and list
values kept as cells. -/
def normFields (pre : String) : List (String × JVal) → Row
  | [] => []
  | (k, v) :: t => normVal pre k v ++ normFields pre t

end

/-- Rename the columns of a one-element expansion: process_data.py line
115 and 119 set each normalized column col to column.col. -/
def prefixRow (c : String) (r : Row) : Row :=
  r.map (fun p => (c ++ "." ++ p.1, p.2))

/-- flatten_json lines 110-122: the scalar expansion of one exploded
cell of the flattened column, as a list of rows.  A dict is normalized
into one row; a nonempty list whose first element is a dict is
normalized element by element into one row per element (pandas raises
on a mixed list, a case no theorem below exercises, modelled as an
empty row for a non-dict element); anything else is wrapped as a
single one-column row. -/
def rowExpand (c : String) (v : JVal) : List Row :=
  match v with
  | vdict fs => [prefixRow c (normFields "" fs)]
  | vlist (x :: xs) =>
    if isVDict x then
      (x :: xs).map (fun e =>
        match e with
        | vdict fs => prefixRow c (normFields "" fs)
        | _ => [])
    else [[(c, v)]]
  | _ => [[(c, v)]]

/-- DataFrame.explode on one row: a list cell turns into one copy of
the row per element, an empty list leaves a single copy with NaN, and
any other cell leaves the row unchanged. -/
def explodeRow (c : String) (r : Row) : List Row :=
  match rowGet r c with
  | vlist [] => [rowSet r c vnull]
  | vlist xs => xs.map (fun x => rowSet r c x)
  | _ => [r]

/-- DataFrame.explode(column, ignore_index=True) over the whole frame. -/
def explodeCol (df : DF) (c : String) : DF :=
  df.flatMap (explodeRow c)

/-- pd.concat(..., axis=1) of two positionally indexed frames: rows are
joined index by index; when the left block (whose columns are padL,
all NaN) has fewer rows than the right one, the missing left rows read
as NaN, which the explicit padding row makes visible to lookups. -/
def alignConcat (padL : Row) : List Row → List Row → List Row
  | l :: ls, r :: rs => (l ++ r) :: alignConcat padL ls rs
  | [], r :: rs => (padL ++ r) :: alignConcat padL [] rs
  | ls, [] => ls

/-- The distinct keys of a list, keeping first occurrences: the column
labels of a DataFrame in order of appearance. -/
def firstDedupAux (seen : List String) : List String → List String
  | [] => []
  | x :: xs =>
    if x ∈ seen then firstDedupAux seen xs
    else x :: firstDedupAux (x :: seen) xs

/-- The distinct keys of a list, keeping first occurrences. -/
def firstDedup (l : List String) : List String :=
  firstDedupAux [] l

/-- The column labels of a DataFrame. -/
def dfColumns (df : DF) : List String :=
  firstDedup (df.flatMap (fun r => r.map Prod.fst))

/-- The all-NaN padding row for the left block of flatten_json's final
concat: the exploded frame's columns without the flattened one. -/
def nullPad (df : DF) (c : String) : Row :=
  ((dfColumns df).filter (fun k => k ≠ c)).map (fun k => (k, vnull))

/-- process_data.py flatten_json: explode the column, expand every
exploded cell into scalar rows, drop the original column and join the
expansion back column-wise by position. -/
def flatten_json (df : DF) (c : String) : DF :=
  let ex := explodeCol df c
  let flat := ex.flatMap (fun r => rowExpand c (rowGet r c))
  alignConcat (nullPad df c) (ex.map (fun r => rowErase r c)) flat

/-- process_data.py lines 143 and 151: the columns at least one of
whose cells is a list or numpy array.  Columns holding only dicts are
not detected. -/
def listColumns (df : DF) : List String :=
  (dfColumns df).filter (fun c => df.any (fun r => isVList (rowGet r c)))

/-- One pass of recursively_flatten: flatten each currently detected
list column in order (the for loop of lines 146-147). -/
def flattenPass (df : DF) : DF :=
  (listColumns df).foldl flatten_json df

mutual

/-- Nesting measure of a cell: the number of layers that the flattener
still has to peel off, counting a list as one layer and counting a
dict layer only when something below it is itself nested (a dict of
scalars is dissolved into scalar columns by one json_normalize with no
residue). -/
def ld : JVal → Nat
  | vlist xs => ldList xs + 1
  | vdict fs =>
    match ldFields fs with
    | 0 => 0
    | n + 1 => n + 2
  | _ => 0

/-- Maximum nesting measure over the elements of a list. -/
def ldList : List JVal → Nat
  | [] => 0
  | x :: xs => max (ld x) (ldList xs)

/-- Maximum nesting measure over the values of a dict. -/
def ldFields : List (String × JVal) → Nat
  | [] => 0
  | p :: t => max (ld p.2) (ldFields t)

end

/-- The cells DataFrame.explode produces from one cell: the elements of
a nonempty list, NaN for an empty list, the cell itself otherwise. -/
def explodeCells (v : JVal) : List JVal :=
  match v with
  | vlist [] => [vnull]
  | vlist xs => xs
  | _ => [v]

/-- No cell of the frame is a top-level dict.  Tables produced by the
ingestion stage satisfy this: pd.json_normalize flattens records into
scalar columns, so records survive only inside list cells. -/
def NoDictCells (df : DF) : Prop :=
  ∀ r ∈ df, ∀ k, isVDict (rowGet r k) = false

/-- The maximum nesting measure over all cells of currently detected
list columns: the number of flattening passes still needed. -/
def maxListLd (df : DF) : Nat :=
  ((listColumns df).map (fun c =>
    (df.map (fun r => ld (rowGet r c))).foldr max 0)).foldr max 0

/-- The complex columns in the sense of the specification: columns with
at least one list/array cell or at least one nested-record cell. -/
def complexColumns (df : DF) : List String :=
  (dfColumns df).filter (fun c =>
    df.any (fun r => isVList (rowGet r c) || isVDict (rowGet r c)))

/-- process_data.py recursively_flatten.  The Python function recurses
while list columns remain (or until the optional depth bound); the
model adds a fuel counter, consumed one unit per recursive call, so
that the definition is total: the theorems below show that fuel at
least the nesting measure of the table makes the fuel guard
unreachable, so on such fuel the model computes exactly what the
Python recursion computes. -/
def recursively_flatten (fuel : Nat) (df : DF) (depth : Option Nat)
    (currentDepth : Nat) : DF :=
  let df2 := flattenPass df
  if (match depth with | none => true | some d => currentDepth < d) then
    if listColumns df2 = [] then df2
    else
      match fuel with
      | 0 => df2
      | f + 1 => recursively_flatten f df2 depth (currentDepth + 1)
  else df2

/-- The durable state of one partition directory: the optional columnar
(parquet) file and the optional row-oriented (csv) mirror. -/
structure PartitionDir where
  parquetFile : Option DF
  csvFile : Option DF

/-- get_data.py load_or_create_dataframe: for a missing directory a new
empty frame; otherwise the parquet file is preferred, then the csv
file, then an empty frame. -/
def load_or_create_dataframe (dir : Option PartitionDir) : DF :=
  match dir with
  | none => []
  | some d =>
    match d.parquetFile with
    | some t => t
    | none =>
      match d.csvFile with
      | some t => t
      | none => []

/-- get_data.py lines 193-196: decode one record per line, normalize
each into a single flat row and append it to the open partition table
(pd.concat with ignore_index). -/
def append_records (df : DF) (recs : List (List (String × JVal))) : DF :=
  recs.foldl (fun d rec => d ++ [normFields "" rec]) df

/-- get_data.py save_logs_to_disk: flush the table to both durable
formats, overwriting the previous state of the partition. -/
def save_logs_to_disk (df : DF) : PartitionDir :=
  ⟨some df, some df⟩

/-- process_data.py load_parquet_files_to_df: discover the parquet
files, return an empty frame when none are found, otherwise read each
file (readPq models pd.read_parquet) and concatenate row-wise. -/
def load_parquet_files_to_df (walk : List (String × List String))
    (readPq : String → DF) (startDate endDate : Option String) : DF :=
  let fileList := find_parquet_files walk startDate endDate
  if fileList.isEmpty then [] else fileList.flatMap readPq

/-- The outcome of one merge run: the combined table written to disk,
if any, and whether the no-data warning was logged instead. -/
structure CombineResult where
  output : Option DF
  warnedNoData : Bool

/-- process_data.py combine_parquet_files: load the partitions in
range; if the frame is nonempty, flatten it recursively (fuel as in
recursively_flatten) and write it; otherwise only log the warning. -/
def combine_parquet_files (fuel : Nat) (walk : List (String × List String))
    (readPq : String → DF) (startDate endDate : Option String) : CombineResult :=
  let df := load_parquet_files_to_df walk readPq startDate endDate
  if !df.isEmpty then ⟨some (recursively_flatten fuel df none 0), false⟩
  else ⟨none, true⟩

theorem rowGet_rowSet_ne (r : Row) (c k : String) (v : JVal) (h : k ≠ c) :
    rowGet (rowSet r c v) k = rowGet r k := by
  induction r with
  | nil => rfl
  | cons p t ih =>
    obtain ⟨k1, v1⟩ := p
    simp only [rowSet]
    by_cases hk : k1 = c
    · have hne : ¬ k1 = k := fun he => h (he ▸ hk)
      rw [if_pos hk]
      show (if k1 = k then v else rowGet t k) = (if k1 = k then v1 else rowGet t k)
      rw [if_neg hne, if_neg hne]
    · rw [if_neg hk]
      show (if k1 = k then v1 else rowGet (rowSet t c v) k) =
        (if k1 = k then v1 else rowGet t k)
      by_cases hk2 : k1 = k
      · rw [if_pos hk2, if_pos hk2]
      · rw [if_neg hk2, if_neg hk2, ih]

theorem rowGet_rowSet_self (r : Row) (c : String) (w : JVal)
    (h : rowGet r c ≠ JVal.vnull) : rowGet (rowSet r c w) c = w := by
  induction r with
  | nil => exact absurd rfl h
  | cons p t ih =>
    obtain ⟨k1, v1⟩ := p
    by_cases hk : k1 = c
    · simp [rowSet, rowGet, hk]
    · simp only [rowGet, hk, if_false] at h
      simp [rowSet, rowGet, hk, ih h]

theorem rowGet_rowErase_ne (r : Row) (c k : String) (h : k ≠ c) :
    rowGet (rowErase r c) k = rowGet r k := by
  induction r with
  | nil => rfl
  | cons p t ih =>
    obtain ⟨k1, v1⟩ := p
    by_cases hk : k1 = c
    · have hne : ¬ k1 = k := fun he => h (he ▸ hk)
      have he : rowErase ((k1, v1) :: t) c = rowErase t c := by
        simp [rowErase, List.filter, hk]
      rw [he, ih]
      show rowGet t k = if k1 = k then v1 else rowGet t k
      rw [if_neg hne]
    · have he : rowErase ((k1, v1) :: t) c = (k1, v1) :: rowErase t c := by
        simp [rowErase, List.filter, hk]
      rw [he]
      show (if k1 = k then v1 else rowGet (rowErase t c) k) =
        (if k1 = k then v1 else rowGet t k)
      by_cases hk2 : k1 = k
      · rw [if_pos hk2, if_pos hk2]
      · rw [if_neg hk2, if_neg hk2, ih]

theorem append_records_eq (df : DF) (recs : List (List (String × JVal))) :
    append_records df recs = df ++ recs.map (fun rec => normFields "" rec) := by
  induction recs generalizing df with
  | nil => simp [append_records]
  | cons x t ih =>
    show append_records (df ++ [normFields "" x]) t = _
    rw [ih]
    simp

theorem searchPat_eq_none (cs : List Char) (h : ∀ i, patAt (cs.drop i) = none) :
    searchPat cs = none := by
  induction cs with
  | nil => rfl
  | cons c t ih =>
    have h0 := h 0
    simp only [List.drop_zero] at h0
    simp only [searchPat, h0]
    exact ih (fun i => h (i + 1))

theorem searchPat_leftmost (cs : List Char) (i : Nat) (s : String)
    (hm : patAt (cs.drop i) = some s)
    (hfirst : ∀ j, j < i → patAt (cs.drop j) = none) :
    searchPat cs = some s := by
  induction cs generalizing i with
  | nil =>
    simp only [List.drop_nil] at hm
    exact absurd hm (by simp [patAt])
  | cons c t ih =>
    cases i with
    | zero =>
      simp only [List.drop_zero] at hm
      simp [searchPat, hm]
    | succ j =>
      have h0 := hfirst 0 (Nat.succ_pos j)
      simp only [List.drop_zero] at h0
      simp only [searchPat, h0]
      exact ih j hm (fun m hmj => hfirst (m + 1) (Nat.succ_lt_succ hmj))

/-- C6: the Date Extractor returns exactly the concatenation YYYYMMDD of
the (leftmost) occurrence of the pattern y=YYYY/m=MM/d=DD in the name,
and the empty-string sentinel when the name contains no occurrence; it
is a total function, so it never raises. -/
theorem c6_date_extractor (nm : String) :
    (∀ i s, patAt (nm.data.drop i) = some s →
      (∀ j, j < i → patAt (nm.data.drop j) = none) →
      extract_date_from_name nm = s) ∧
    ((∀ i, patAt (nm.data.drop i) = none) → extract_date_from_name nm = "") := by
  constructor
  · intro i s hm hfirst
    unfold extract_date_from_name
    rw [searchPat_leftmost nm.data i s hm hfirst]
    rfl
  · intro h
    unfold extract_date_from_name
    rw [searchPat_eq_none nm.data h]
    rfl

/-- Witness for C6 on the specification's example blob name and on a
name without a date pattern. -/
theorem c6_date_extractor_witness :
    extract_date_from_name "logs/y=2024/m=06/d=18/part-0.json" = "20240618" ∧
    extract_date_from_name "part-0.json" = "" := by
  constructor
  · exact (c6_date_extractor _).1 5 "20240618" (by decide)
      (by intro j hj; interval_cases j <;> decide)
  · refine (c6_date_extractor _).2 (fun i => ?_)
    rcases Nat.lt_or_ge i 11 with h | h
    · interval_cases i <;> decide
    · have hlen : ("part-0.json".data).length ≤ i := le_trans (by decide) h
      rw [List.drop_eq_nil_of_le hlen]
      decide

/-- C5 (code defect): a blob whose name contains no date pattern is not
skipped by the driver.  The extractor returns the empty sentinel after
its warning, but the range filter of lines 166-167 immediately
evaluates int('') on it: with a present bound this raises ValueError,
which aborts the whole listing loop (only the run-level handler of
line 208 catches it), and with both bounds absent the filter
short-circuits to True, so the unroutable blob is processed rather
than skipped. -/
theorem c5_unroutable_not_skipped :
    extract_date_from_name "part-0.json" = "" ∧
    blobStep "part-0.json" (some "20240618") (some "20240801") = .error () ∧
    blobStep "part-0.json" none none = .ok true := by
  refine ⟨rfl, rfl, rfl⟩

/-- C7: for a valid 8-digit partition key with bounds each absent or a
valid 8-digit string, the ingestion driver's filter evaluates without
raising and accepts the key exactly when it lies in the inclusive
integer range, and the merger's partition-directory filter accepts
exactly the same keys. -/
theorem c7_date_range_filter (k : String) (sd ed : Option String)
    (hk : k.length = 8 ∧ k.data.all Char.isDigit = true)
    (hsd : ∀ s ∈ sd, s.length = 8 ∧ s.data.all Char.isDigit = true)
    (hed : ∀ e ∈ ed, e.length = 8 ∧ e.data.all Char.isDigit = true) :
    (∃ b, blobFilterCond k sd ed = .ok b) ∧
    (blobFilterCond k sd ed = .ok true ↔
      (∀ s ∈ sd, strToNat s ≤ strToNat k) ∧ (∀ e ∈ ed, strToNat k ≤ strToNat e)) ∧
    (mergerKeep (strToNat k) sd ed = true ↔
      (∀ s ∈ sd, strToNat s ≤ strToNat k) ∧ (∀ e ∈ ed, strToNat k ≤ strToNat e)) := by
  have hne : ∀ s : String, s.length = 8 → s ≠ "" := by
    intro s hs he
    rw [he] at hs
    exact absurd hs (by decide)
  have hbo : ∀ (a : Int) (f : Int → Except Unit Bool),
      ((Except.ok a : Except Unit Int) >>= f) = f a := fun a f => rfl
  have hbb : ∀ (a : Bool) (f : Bool → Except Unit Bool),
      ((Except.ok a : Except Unit Bool) >>= f) = f a := fun a f => rfl
  have hpb : ∀ a : Bool, (pure a : Except Unit Bool) = Except.ok a := fun a => rfl
  have hpy : ∀ s : String, s.length = 8 → s.data.all Char.isDigit = true →
      pyInt s = .ok (strToNat s) := by
    intro s hs hd
    unfold pyInt
    rw [if_pos ⟨by omega, hd⟩]
  have hpk := hpy k hk.1 hk.2
  cases sd with
  | none =>
    cases ed with
    | none =>
      refine ⟨⟨true, rfl⟩, ?_, ?_⟩
      · rw [show blobFilterCond k none none = .ok true from rfl]
        simp
      · simp [mergerKeep, optTruthy]
    | some e =>
      obtain ⟨he1, he2⟩ := hed e rfl
      have hpe := hpy e he1 he2
      have hoe : optTruthy (some e) = true := by simp [optTruthy, hne e he1]
      have heq : blobFilterCond k none (some e) =
          .ok (decide (strToNat k ≤ strToNat e)) := by
        have hon : optTruthy none = false := rfl
        simp only [blobFilterCond, hon, Bool.false_eq_true, if_false, hoe,
          if_true, Option.getD_some, hpk, hpe, hpb, hbo, hbb]
        norm_num
      refine ⟨⟨_, heq⟩, ?_, ?_⟩
      · rw [heq]
        simp
      · simp only [mergerKeep, hoe, Option.getD_some]
        simp [optTruthy]
  | some s =>
    obtain ⟨hs1, hs2⟩ := hsd s rfl
    have hps := hpy s hs1 hs2
    have hos : optTruthy (some s) = true := by simp [optTruthy, hne s hs1]
    cases ed with
    | none =>
      have heq : blobFilterCond k (some s) none =
          .ok (decide (strToNat s ≤ strToNat k)) := by
        simp only [blobFilterCond, hos, if_true, Option.getD_some, hpk, hps,
          hpb, hbo, hbb, optTruthy]
        by_cases hcmp : strToNat s ≤ strToNat k <;> simp [hcmp, hne s hs1]
      refine ⟨⟨_, heq⟩, ?_, ?_⟩
      · rw [heq]
        simp
      · simp only [mergerKeep, hos, Option.getD_some]
        simp [optTruthy]
    | some e =>
      obtain ⟨he1, he2⟩ := hed e rfl
      have hpe := hpy e he1 he2
      have hoe : optTruthy (some e) = true := by simp [optTruthy, hne e he1]
      have heq : blobFilterCond k (some s) (some e) =
          .ok (decide (strToNat s ≤ strToNat k) &&
            decide (strToNat k ≤ strToNat e)) := by
        simp only [blobFilterCond, hos, hoe, if_true, Option.getD_some, hpk, hps,
          hpe, hpb, hbo, hbb]
        by_cases hc1 : strToNat s ≤ strToNat k <;>
          by_cases hc2 : strToNat k ≤ strToNat e <;> simp [hc1, hc2]
      refine ⟨⟨_, heq⟩, ?_, ?_⟩
      · rw [heq]
        simp
      · simp [mergerKeep, optTruthy, hne s hs1, hne e he1]

/-- Witness for C7 at the default date range of the scripts. -/
theorem c7_date_range_filter_witness :
    blobFilterCond "20240618" (some "20240601") (some "20240801") = .ok true ∧
    mergerKeep (strToNat "20240618") (some "20240601") (some "20240801") = true := by
  have h := c7_date_range_filter "20240618" (some "20240601") (some "20240801")
    ⟨by decide, by decide⟩
    (by intro s hs; simp only [Option.mem_def, Option.some.injEq] at hs
        subst hs; exact ⟨by decide, by decide⟩)
    (by intro e he; simp only [Option.mem_def, Option.some.injEq] at he
        subst he; exact ⟨by decide, by decide⟩)
  have hrange : (∀ s ∈ some "20240601", strToNat s ≤ strToNat "20240618") ∧
      (∀ e ∈ some "20240801", strToNat "20240618" ≤ strToNat e) := by
    constructor
    · intro s hs; simp only [Option.mem_def, Option.some.injEq] at hs; subst hs; decide
    · intro e he; simp only [Option.mem_def, Option.some.injEq] at he; subst he; decide
  exact ⟨h.2.1.mpr hrange, h.2.2.mpr hrange⟩

theorem retryLoop_count (fetch : Nat → Option α) :
    ∀ n mr a, mr - a ≤ n → (retryLoop fetch mr a).2.2 ≤ mr - a := by
  intro n
  induction n with
  | zero =>
    intro mr a h
    have ha : ¬ a < mr := by omega
    rw [retryLoop, if_neg ha]
    simp
  | succ n ih =>
    intro mr a h
    rw [retryLoop]
    by_cases ha : a < mr
    · rw [if_pos ha]
      cases hf : fetch a with
      | some v => simpa using (by omega : 1 ≤ mr - a)
      | none =>
        by_cases hb : a < mr - 1
        · simp only [if_pos hb]
          have hrec := ih mr (a + 1) (by omega)
          show (retryLoop fetch mr (a + 1)).2.2 + 1 ≤ mr - a
          omega
        · simp only [if_neg hb]
          simpa using (by omega : 1 ≤ mr - a)
    · rw [if_neg ha]
      simp

theorem range_pow_shift (a k : Nat) :
    (List.range (k + 1)).map (fun i => 2 ^ (a + i)) =
      2 ^ a :: (List.range k).map (fun i => 2 ^ (a + 1 + i)) := by
  simp only [List.range_succ_eq_map, List.map_cons, List.map_map, Nat.add_zero]
  congr 1
  refine List.map_congr_left (fun i _ => ?_)
  simp only [Function.comp_apply]
  congr 1
  omega

theorem retryLoop_allFail (fetch : Nat → Option α) :
    ∀ n mr a, mr - a ≤ n + 1 → a < mr →
      (∀ j, a ≤ j → j < mr → fetch j = none) →
      retryLoop fetch mr a =
        (.error (), (List.range (mr - 1 - a)).map (fun i => 2 ^ (a + i)), mr - a) := by
  intro n
  induction n with
  | zero =>
    intro mr a h ha hall
    have hmr : mr = a + 1 := by omega
    subst hmr
    rw [retryLoop, if_pos ha]
    simp only [hall a le_rfl ha]
    have hb : ¬ a < a + 1 - 1 := by omega
    rw [if_neg hb]
    simp
  | succ n ih =>
    intro mr a h ha hall
    by_cases hb : a < mr - 1
    · rw [retryLoop, if_pos ha]
      simp only [hall a le_rfl ha]
      rw [if_pos hb]
      have hrec := ih mr (a + 1) (by omega) (by omega)
        (fun j hj1 hj2 => hall j (by omega) hj2)
      simp only [hrec]
      rw [show mr - 1 - a = (mr - 1 - (a + 1)) + 1 from by omega, range_pow_shift,
        show mr - a = (mr - (a + 1)) + 1 from by omega]
    · have hmr : mr = a + 1 := by omega
      subst hmr
      rw [retryLoop, if_pos ha]
      simp only [hall a le_rfl ha]
      rw [if_neg hb]
      simp

theorem retryLoop_firstOk (fetch : Nat → Option α) :
    ∀ n j mr a v, j - a ≤ n → a ≤ j → j < mr → fetch j = some v →
      (∀ i, a ≤ i → i < j → fetch i = none) →
      retryLoop fetch mr a =
        (.ok v, (List.range (j - a)).map (fun i => 2 ^ (a + i)), j - a + 1) := by
  intro n
  induction n with
  | zero =>
    intro j mr a v h haj hj hf _
    have hja : j = a := by omega
    subst hja
    rw [retryLoop, if_pos hj]
    simp [hf]
  | succ n ih =>
    intro j mr a v h haj hj hf hall
    by_cases hja : j = a
    · subst hja
      rw [retryLoop, if_pos hj]
      simp [hf]
    · have ha : a < mr := by omega
      rw [retryLoop, if_pos ha]
      simp only [hall a le_rfl (by omega)]
      have hb : a < mr - 1 := by omega
      rw [if_pos hb]
      have hrec := ih j mr (a + 1) v (by omega) (by omega) hj hf
        (fun i hi1 hi2 => hall i (by omega) hi2)
      simp only [hrec]
      rw [show j - a = (j - (a + 1)) + 1 from by omega, range_pow_shift]

/-- C8: the retrying fetcher makes at most maxRetries attempts (default
3); when every attempt fails it sleeps 2 to the power attempt after
each failed attempt except the last and then propagates the failure;
when attempt j is the first to succeed it has slept exactly after the
j preceding failures and returns the fetched value. -/
theorem c8_retrying_fetcher (fetch : Nat → Option α) (maxRetries : Nat)
    (hmr : 1 ≤ maxRetries) :
    (fetchWithRetry fetch maxRetries).2.2 ≤ maxRetries ∧
    ((∀ j, j < maxRetries → fetch j = none) →
      fetchWithRetry fetch maxRetries =
        (.error (), (List.range (maxRetries - 1)).map (fun i => 2 ^ i), maxRetries)) ∧
    (∀ j v, j < maxRetries → fetch j = some v → (∀ i, i < j → fetch i = none) →
      fetchWithRetry fetch maxRetries =
        (.ok v, (List.range j).map (fun i => 2 ^ i), j + 1)) ∧
    defaultMaxRetries = 3 := by
  refine ⟨?_, ?_, ?_, rfl⟩
  · simpa using retryLoop_count fetch maxRetries maxRetries 0 (by omega)
  · intro hall
    have h := retryLoop_allFail fetch maxRetries maxRetries 0 (by omega) (by omega)
      (fun j _ hj => hall j hj)
    simpa [fetchWithRetry] using h
  · intro j v hj hf hprev
    have h := retryLoop_firstOk fetch j j maxRetries 0 v (by omega) (by omega) hj hf
      (fun i _ hi => hprev i hi)
    simpa [fetchWithRetry] using h

/-- Witness for C8: with 3 attempts, a fetch succeeding on attempt 1
sleeps once (1 time unit) and stops after 2 attempts, and a fetch that
always fails sleeps 1 and 2 time units and propagates the error after
3 attempts. -/
theorem c8_retrying_fetcher_witness :
    fetchWithRetry (fun j => if j = 1 then some 7 else none) 3 = (.ok 7, [1], 2) ∧
    fetchWithRetry (fun _ => (none : Option Nat)) 3 = (.error (), [1, 2], 3) := by
  constructor
  · have h := (c8_retrying_fetcher (fun j => if j = 1 then some 7 else none) 3
      (by omega)).2.2.1 1 7 (by omega) rfl
      (by intro i hi; interval_cases i; rfl)
    simpa using h
  · have h := (c8_retrying_fetcher (fun _ => (none : Option Nat)) 3
      (by omega)).2.1 (fun j _ => rfl)
    simpa using h

/-- Counterexample to C9 as stated: the empty string is a malformed
bound (it is not 8 digits), yet passing it as start_date does not
yield an empty result — Python truthiness makes the validation guard
skip falsy bounds, so discovery proceeds and returns the matching
files. -/
theorem c9_counterexample :
    is_valid_date_format "" = false ∧
    find_parquet_files [("base/20240601", ["data.parquet"])] (some "") none =
      ["base/20240601/data.parquet"] := by
  exact ⟨rfl, rfl⟩

/-- C9 (amended): for every present, truthy (non-empty) malformed
date-range bound, partition discovery raises no exception and returns
the empty list (for the end bound, provided the start bound passed its
own check first); and every merge run whose loaded frame is empty
writes no combined output and signals the condition with the warning
log, not an error. -/
theorem c9_merge_error_handling :
    (∀ (walk : List (String × List String)) (ed : Option String) (s : String),
      s ≠ "" → is_valid_date_format s = false →
      find_parquet_files walk (some s) ed = []) ∧
    (∀ (walk : List (String × List String)) (sd : Option String) (e : String),
      e ≠ "" → is_valid_date_format e = false →
      (optTruthy sd = false ∨ is_valid_date_format (sd.getD "") = true) →
      find_parquet_files walk sd (some e) = []) ∧
    (∀ fuel walk readPq sd ed,
      load_parquet_files_to_df walk readPq sd ed = [] →
      combine_parquet_files fuel walk readPq sd ed = ⟨none, true⟩) := by
  refine ⟨?_, ?_, ?_⟩
  · intro walk ed s hs hv
    have ho : optTruthy (some s) = true := by simp [optTruthy, hs]
    simp [find_parquet_files, ho, hv]
  · intro walk sd e he hv hsd
    have ho : optTruthy (some e) = true := by simp [optTruthy, he]
    rcases hsd with h1 | h1
    · simp [find_parquet_files, h1, ho, hv]
    · simp [find_parquet_files, h1, ho, hv]
  · intro fuel walk readPq sd ed h
    simp [combine_parquet_files, h]

/-- Witness for C9 (amended) on a malformed dashed bound and on an
empty merge input. -/
theorem c9_merge_error_handling_witness :
    find_parquet_files [("base/20240601", ["data.parquet"])] (some "2024-06-01")
      none = [] ∧
    combine_parquet_files 3 [] (fun _ => []) none none = ⟨none, true⟩ := by
  constructor
  · exact c9_merge_error_handling.1 _ none "2024-06-01" (by decide) (by decide)
  · exact c9_merge_error_handling.2.2 3 [] _ none none rfl

/-- C2: resume correctness of a durable partition.  Opening prefers the
columnar file over the row-oriented fallback; appending M decoded
records to the N loaded rows and flushing stores a table of exactly
N + M rows whose first N rows are unchanged. -/
theorem c2_resume_correctness (pd : PartitionDir) (t : DF)
    (recs : List (List (String × JVal))) (hp : pd.parquetFile = some t) :
    load_or_create_dataframe (some pd) = t ∧
    (save_logs_to_disk (append_records t recs)).parquetFile =
      some (append_records t recs) ∧
    (append_records t recs).length = t.length + recs.length ∧
    (∀ i, i < t.length → (append_records t recs)[i]? = t[i]?) := by
  refine ⟨?_, rfl, ?_, ?_⟩
  · simp [load_or_create_dataframe, hp]
  · rw [append_records_eq]
    simp
  · intro i hi
    rw [append_records_eq]
    exact List.getElem?_append_left hi

/-- Witness for C2: a one-row durable partition extended by one new
record. -/
theorem c2_resume_correctness_witness :
    load_or_create_dataframe (some ⟨some [[("a", vint 1)]], none⟩) =
      [[("a", vint 1)]] ∧
    (append_records [[("a", vint 1)]] [[("b", vint 2)]]).length = 2 ∧
    (append_records [[("a", vint 1)]] [[("b", vint 2)]])[0]? =
      some [("a", vint 1)] := by
  have h := c2_resume_correctness ⟨some [[("a", vint 1)]], none⟩ [[("a", vint 1)]]
    [[("b", vint 2)]] rfl
  exact ⟨h.1, h.2.2.1, (h.2.2.2 0 (by decide)).trans rfl⟩

/-- C10: a row whose cell in the exploded column is an empty list is
kept by the flattener as a single row: explode turns the empty list
into NaN while every sibling column keeps its value, and the scalar
expansion of that NaN cell is the single one-column row holding null. -/
theorem c10_empty_list_row (r : Row) (c : String) (h : rowGet r c = vlist []) :
    explodeRow c r = [rowSet r c vnull] ∧
    rowGet (rowSet r c vnull) c = vnull ∧
    (∀ k, k ≠ c → rowGet (rowSet r c vnull) k = rowGet r k) ∧
    rowExpand c (rowGet (rowSet r c vnull) c) = [[(c, vnull)]] := by
  have hset : rowGet (rowSet r c vnull) c = vnull :=
    rowGet_rowSet_self r c vnull (by rw [h]; exact fun he => JVal.noConfusion he)
  refine ⟨?_, hset, fun k hk => rowGet_rowSet_ne r c k vnull hk, ?_⟩
  · unfold explodeRow
    rw [h]
  · rw [hset]
    rfl

/-- Witness for C10 on a two-column row with an empty list in column b. -/
theorem c10_empty_list_row_witness :
    explodeRow "b" [("a", vint 1), ("b", vlist [])] =
      [[("a", vint 1), ("b", vnull)]] ∧
    rowGet [("a", vint 1), ("b", vnull)] "a" = vint 1 := by
  have h := c10_empty_list_row [("a", vint 1), ("b", vlist [])] "b" rfl
  exact ⟨h.1.trans rfl, rfl⟩

theorem explodeRow_of_ne_nil (r : Row) (c : String) (xs : List JVal)
    (hxs : rowGet r c = vlist xs) (hne : xs ≠ []) :
    explodeRow c r = xs.map (rowSet r c) := by
  unfold explodeRow
  rw [hxs]
  cases xs with
  | nil => exact absurd rfl hne
  | cons x t => rfl

theorem alignConcat_cons (pad l r : Row) (ls rs : List Row) :
    alignConcat pad (l :: ls) (r :: rs) = (l ++ r) :: alignConcat pad ls rs := rfl

theorem alignConcat_single (pad : Row) (f : Row → Row) (g : Row → List Row) :
    ∀ (ls : List Row), (∀ r ∈ ls, (g r).length = 1) →
      ∀ (i : Nat) (r : Row), ls[i]? = some r →
        ∃ er ∈ g r, (alignConcat pad (ls.map f) (ls.flatMap g))[i]? =
          some (f r ++ er) := by
  intro ls
  induction ls with
  | nil =>
    intro _ i r h
    simp at h
  | cons x t ih =>
    intro hone i r hir
    obtain ⟨e, he⟩ : ∃ e, g x = [e] := by
      have h1 := hone x (List.mem_cons_self x t)
      cases hgx : g x with
      | nil => rw [hgx] at h1; simp at h1
      | cons a l =>
        rw [hgx] at h1
        simp only [List.length_cons] at h1
        have hl : l = [] := List.length_eq_zero.mp (by omega)
        exact ⟨a, by rw [hl]⟩
    have hstep : alignConcat pad ((x :: t).map f) ((x :: t).flatMap g) =
        (f x ++ e) :: alignConcat pad (t.map f) (t.flatMap g) := by
      rw [List.map_cons, List.flatMap_cons, he]
      rfl
    cases i with
    | zero =>
      have hr : r = x := by
        simp only [List.getElem?_cons_zero, Option.some.injEq] at hir
        exact hir.symm
      subst hr
      exact ⟨e, by rw [he]; exact List.mem_singleton.mpr rfl, by
        rw [hstep]; simp⟩
    | succ n =>
      simp only [List.getElem?_cons_succ] at hir
      obtain ⟨er, hm, heq⟩ := ih (fun q hq => hone q (List.mem_cons_of_mem x hq)) n r hir
      exact ⟨er, hm, by rw [hstep]; simpa using heq⟩

theorem flatMap_getElem_block (g : Row → List Row) (A B : DF) (r : Row) (j : Nat)
    (hj : j < (g r).length) :
    ((A ++ r :: B).flatMap g)[(A.flatMap g).length + j]? = (g r)[j]? := by
  rw [List.flatMap_append, List.flatMap_cons,
    List.getElem?_append_right (by omega : (A.flatMap g).length ≤ (A.flatMap g).length + j)]
  rw [show (A.flatMap g).length + j - (A.flatMap g).length = j from by omega]
  rw [List.getElem?_append_left hj]

theorem explodeCol_block (df : DF) (c : String) (i : Nat) (r : Row) (xs : List JVal)
    (hir : df[i]? = some r) (hxs : rowGet r c = vlist xs) (hne : xs ≠ []) :
    ∀ j, (hj : j < xs.length) →
      (explodeCol df c)[((df.take i).flatMap (explodeRow c)).length + j]? =
        some (rowSet r c (xs.get ⟨j, hj⟩)) := by
  intro j hj
  have hi : i < df.length := by
    by_contra hcon
    rw [List.getElem?_eq_none (by omega)] at hir
    exact Option.noConfusion hir
  have hget : df[i] = r := by
    have h2 := List.getElem?_eq_getElem hi
    rw [hir] at h2
    exact Option.some.inj h2.symm
  have hsplit : df = df.take i ++ r :: df.drop (i + 1) := by
    rw [show r :: df.drop (i + 1) = df.drop i from
      (hget ▸ List.drop_eq_getElem_cons hi).symm]
    exact (List.take_append_drop i df).symm
  have hjm : j < (explodeRow c r).length := by
    rw [explodeRow_of_ne_nil r c xs hxs hne]
    simpa using hj
  have hb := flatMap_getElem_block (explodeRow c) (df.take i) (df.drop (i + 1)) r j hjm
  rw [← hsplit] at hb
  unfold explodeCol
  rw [hb, explodeRow_of_ne_nil r c xs hxs hne, List.getElem?_map,
    List.getElem?_eq_getElem hj]
  rfl

/-- Counterexample to C1 as stated: on a table whose list column holds a
doubly nested list of records, one exploded cell expands to two scalar
rows, so the column-wise join shifts every later expansion down — the
expansion computed from exploded row 1 does not land on row 1.  Here
row 1 of the flattened result holds the b.c value produced by row 0's
cell instead of its own expansion of the scalar 5. -/
theorem c1_counterexample :
    ¬ (∀ (df : DF) (c : String),
        (∀ (i : Nat) (r : Row) (xs : List JVal), df[i]? = some r →
          rowGet r c = vlist xs → xs ≠ [] →
          ∃ off, ∀ j, (hj : j < xs.length) →
            (explodeCol df c)[off + j]? = some (rowSet r c (xs.get ⟨j, hj⟩)) ∧
            ∀ k, k ≠ c → rowGet (rowSet r c (xs.get ⟨j, hj⟩)) k = rowGet r k) ∧
        (∀ (i : Nat) (r : Row), (explodeCol df c)[i]? = some r →
          ∃ er ∈ rowExpand c (rowGet r c),
            (flatten_json df c)[i]? = some (rowErase r c ++ er))) := by
  intro hcl
  obtain ⟨er, hm, heq⟩ := (hcl
    [[("a", vint 1), ("b", vlist [vlist [vdict [("c", vint 1)], vdict [("c", vint 2)]]])],
     [("a", vint 2), ("b", vint 5)]] "b").2 1 [("a", vint 2), ("b", vint 5)] rfl
  have her : er = [("b", vint 5)] := by
    have hm2 : er ∈ [[("b", vint 5)]] := hm
    simpa using hm2
  subst her
  have hval : (flatten_json
      [[("a", vint 1), ("b", vlist [vlist [vdict [("c", vint 1)], vdict [("c", vint 2)]]])],
       [("a", vint 2), ("b", vint 5)]] "b")[1]? =
      some [("a", vint 2), ("b.c", vint 2)] := rfl
  rw [hval] at heq
  have hred : rowErase [("a", vint 2), ("b", vint 5)] "b" ++ [("b", vint 5)] =
      [("a", vint 2), ("b", vint 5)] := rfl
  rw [hred] at heq
  simp at heq

/-- C1 (amended): for a column each of whose exploded cells expands to
exactly one scalar row, flatten_json is row-aligned: exploding a
nonempty list of length k in row i produces a contiguous block of k
rows each retaining the values of all sibling columns of row i, and
row i of the final column-wise join is exploded row i without the
flattened column followed by the scalar expansion computed from that
very row. -/
theorem c1_flattener_alignment (df : DF) (c : String)
    (hone : ∀ r ∈ explodeCol df c, (rowExpand c (rowGet r c)).length = 1) :
    (∀ (i : Nat) (r : Row) (xs : List JVal), df[i]? = some r →
      rowGet r c = vlist xs → xs ≠ [] →
      ∃ off, ∀ j, (hj : j < xs.length) →
        (explodeCol df c)[off + j]? = some (rowSet r c (xs.get ⟨j, hj⟩)) ∧
        ∀ k, k ≠ c → rowGet (rowSet r c (xs.get ⟨j, hj⟩)) k = rowGet r k) ∧
    (∀ (i : Nat) (r : Row), (explodeCol df c)[i]? = some r →
      ∃ er ∈ rowExpand c (rowGet r c),
        (flatten_json df c)[i]? = some (rowErase r c ++ er)) := by
  constructor
  · intro i r xs hir hxs hne
    exact ⟨((df.take i).flatMap (explodeRow c)).length, fun j hj =>
      ⟨explodeCol_block df c i r xs hir hxs hne j hj,
       fun k hk => rowGet_rowSet_ne r c k _ hk⟩⟩
  · intro i r hir
    exact alignConcat_single (nullPad df c) (fun r2 => rowErase r2 c)
      (fun r2 => rowExpand c (rowGet r2 c)) (explodeCol df c) hone i r hir

/-- Witness for C1 (amended) on the specification's example: one row
with a = 1 and b a list of two records explodes into two rows sharing
a = 1 with b.c equal to 1 and 2 respectively. -/
theorem c1_flattener_alignment_witness :
    flatten_json
        [[("a", vint 1), ("b", vlist [vdict [("c", vint 1)], vdict [("c", vint 2)]])]]
        "b" =
      [[("a", vint 1), ("b.c", vint 1)], [("a", vint 1), ("b.c", vint 2)]] ∧
    (∃ er ∈ rowExpand "b" (vdict [("c", vint 1)]),
      (flatten_json
        [[("a", vint 1), ("b", vlist [vdict [("c", vint 1)], vdict [("c", vint 2)]])]]
        "b")[0]? = some ([("a", vint 1)] ++ er)) ∧
    (∃ off, (explodeCol
        [[("a", vint 1), ("b", vlist [vdict [("c", vint 1)], vdict [("c", vint 2)]])]]
        "b")[off + 0]? =
      some [("a", vint 1), ("b", vdict [("c", vint 1)])]) := by
  have h := c1_flattener_alignment
    [[("a", vint 1), ("b", vlist [vdict [("c", vint 1)], vdict [("c", vint 2)]])]] "b"
    (by
      intro r hr
      have hr2 : r ∈ [[("a", vint 1), ("b", vdict [("c", vint 1)])],
          [("a", vint 1), ("b", vdict [("c", vint 2)])]] := hr
      rcases List.mem_cons.mp hr2 with h1 | h1
      · subst h1; rfl
      · rcases List.mem_cons.mp h1 with h2 | h2
        · subst h2; rfl
        · simp at h2)
  refine ⟨rfl, ?_, ?_⟩
  · exact h.2 0 [("a", vint 1), ("b", vdict [("c", vint 1)])] rfl
  · obtain ⟨off, hoff⟩ := h.1 0 [("a", vint 1),
      ("b", vlist [vdict [("c", vint 1)], vdict [("c", vint 2)]])]
      [vdict [("c", vint 1)], vdict [("c", vint 2)]] rfl rfl (by simp)
    exact ⟨off, (hoff 0 (by decide)).1⟩

theorem ld_of_not_list_dict (v : JVal) (h1 : isVList v = false)
    (h2 : isVDict v = false) : ld v = 0 := by
  cases v with
  | vnull => rfl
  | vbool b => rfl
  | vint n => rfl
  | vstr s => rfl
  | vlist xs => simp [isVList] at h1
  | vdict fs => simp [isVDict] at h2

theorem one_le_ld_of_isVList (v : JVal) (h : isVList v = true) : 1 ≤ ld v := by
  cases v with
  | vlist xs =>
    show 1 ≤ ldList xs + 1
    omega
  | vnull => simp [isVList] at h
  | vbool b => simp [isVList] at h
  | vint n => simp [isVList] at h
  | vstr s => simp [isVList] at h
  | vdict fs => simp [isVList] at h

theorem ldList_mem_le (xs : List JVal) (x : JVal) (hx : x ∈ xs) :
    ld x ≤ ldList xs := by
  induction xs with
  | nil => simp at hx
  | cons y t ih =>
    rcases List.mem_cons.mp hx with h | h
    · subst h
      simp [ldList, Nat.le_max_left]
    · calc ld x ≤ ldList t := ih h
        _ ≤ ldList (y :: t) := by simp [ldList, Nat.le_max_right]

theorem ldFields_mem_le (fs : List (String × JVal)) (p : String × JVal)
    (hp : p ∈ fs) : ld p.2 ≤ ldFields fs := by
  induction fs with
  | nil => simp at hp
  | cons q t ih =>
    rcases List.mem_cons.mp hp with h | h
    · subst h
      simp [ldFields, Nat.le_max_left]
    · calc ld p.2 ≤ ldFields t := ih h
        _ ≤ ldFields (q :: t) := by simp [ldFields, Nat.le_max_right]

theorem ldFields_le_ld_vdict (fs : List (String × JVal)) :
    ldFields fs ≤ ld (vdict fs) := by
  show ldFields fs ≤ ld (vdict fs)
  cases h : ldFields fs with
  | zero => simp
  | succ n =>
    have : ld (vdict fs) = n + 2 := by
      simp [ld, h]
    omega

theorem ld_vlist_eq (xs : List JVal) : ld (vlist xs) = ldList xs + 1 := rfl

theorem rowGet_mem_or_null (r : Row) (k : String) :
    rowGet r k = vnull ∨ ∃ p ∈ r, p.1 = k ∧ rowGet r k = p.2 := by
  induction r with
  | nil => exact Or.inl rfl
  | cons q t ih =>
    obtain ⟨k1, v1⟩ := q
    by_cases hk : k1 = k
    · refine Or.inr ⟨(k1, v1), List.mem_cons_self _ _, hk, ?_⟩
      show (if k1 = k then v1 else rowGet t k) = v1
      rw [if_pos hk]
    · have hred : rowGet ((k1, v1) :: t) k = rowGet t k := by
        show (if k1 = k then v1 else rowGet t k) = rowGet t k
        rw [if_neg hk]
      rcases ih with h | ⟨p, hp, h1, h2⟩
      · exact Or.inl (hred.trans h)
      · exact Or.inr ⟨p, List.mem_cons_of_mem _ hp, h1, hred.trans h2⟩

theorem noDictCells_of_pairs (df : DF)
    (h : ∀ r ∈ df, ∀ p ∈ r, isVDict p.2 = false) : NoDictCells df := by
  intro r hr k
  rcases rowGet_mem_or_null r k with h1 | ⟨p, hp, _, h2⟩
  · rw [h1]
    rfl
  · rw [h2]
    exact h r hr p hp

theorem mem_firstDedupAux (l : List String) :
    ∀ (seen : List String) (x : String),
      x ∈ firstDedupAux seen l ↔ x ∈ l ∧ x ∉ seen := by
  induction l with
  | nil => intro seen x; simp [firstDedupAux]
  | cons y t ih =>
    intro seen x
    by_cases hy : y ∈ seen
    · rw [show firstDedupAux seen (y :: t) = firstDedupAux seen t from by
        simp [firstDedupAux, hy]]
      rw [ih]
      constructor
      · rintro ⟨h1, h2⟩
        exact ⟨List.mem_cons_of_mem _ h1, h2⟩
      · rintro ⟨h1, h2⟩
        rcases List.mem_cons.mp h1 with h3 | h3
        · exact absurd (h3 ▸ hy) h2
        · exact ⟨h3, h2⟩
    · rw [show firstDedupAux seen (y :: t) = y :: firstDedupAux (y :: seen) t from by
        simp [firstDedupAux, hy]]
      constructor
      · intro hx
        rcases List.mem_cons.mp hx with h3 | h3
        · exact ⟨h3 ▸ List.mem_cons_self y t, h3 ▸ hy⟩
        · have := (ih (y :: seen) x).mp h3
          exact ⟨List.mem_cons_of_mem _ this.1,
            fun hc => this.2 (List.mem_cons_of_mem _ hc)⟩
      · rintro ⟨h1, h2⟩
        rcases List.mem_cons.mp h1 with h3 | h3
        · exact h3 ▸ List.mem_cons_self _ _
        · by_cases hxy : x = y
          · exact hxy ▸ List.mem_cons_self _ _
          · exact List.mem_cons_of_mem _ ((ih (y :: seen) x).mpr
              ⟨h3, fun hc => (List.mem_cons.mp hc).elim hxy h2⟩)

theorem mem_firstDedup (l : List String) (x : String) :
    x ∈ firstDedup l ↔ x ∈ l := by
  rw [firstDedup, mem_firstDedupAux]
  simp

theorem key_mem_dfColumns (df : DF) (r : Row) (p : String × JVal)
    (hr : r ∈ df) (hp : p ∈ r) : p.1 ∈ dfColumns df := by
  rw [dfColumns, mem_firstDedup]
  rw [List.mem_flatMap]
  exact ⟨r, hr, List.mem_map.mpr ⟨p, hp, rfl⟩⟩

theorem foldr_max_le (l : List Nat) (b : Nat) (h : ∀ a ∈ l, a ≤ b) :
    l.foldr max 0 ≤ b := by
  induction l with
  | nil => simp
  | cons x t ih =>
    simp only [List.foldr_cons]
    exact max_le (h x (List.mem_cons_self _ _))
      (ih (fun a ha => h a (List.mem_cons_of_mem _ ha)))

theorem le_foldr_max (l : List Nat) (a : Nat) (h : a ∈ l) :
    a ≤ l.foldr max 0 := by
  induction l with
  | nil => simp at h
  | cons x t ih =>
    simp only [List.foldr_cons]
    rcases List.mem_cons.mp h with h1 | h1
    · exact h1 ▸ Nat.le_max_left _ _
    · exact le_trans (ih h1) (Nat.le_max_right _ _)

theorem normVal_normFields_leaf :
    ∀ n : Nat,
      (∀ v : JVal, sizeOf v ≤ n → ∀ pre k p, p ∈ normVal pre k v →
        isVDict p.2 = false ∧ ld p.2 ≤ ld v) ∧
      (∀ fs : List (String × JVal), sizeOf fs ≤ n → ∀ pre p, p ∈ normFields pre fs →
        isVDict p.2 = false ∧ ld p.2 ≤ ldFields fs) := by
  intro n
  induction n with
  | zero =>
    constructor
    · intro v hv
      exfalso
      cases v <;> simp at hv
    · intro fs hfs
      exfalso
      cases fs <;> simp at hfs
  | succ n ih =>
    constructor
    · intro v hv pre k p hp
      cases v with
      | vdict fs =>
        have hspec : sizeOf (vdict fs) = 1 + sizeOf fs := by simp
        have hs : sizeOf fs ≤ n := by omega
        have h2 := ih.2 fs hs (pre ++ k ++ ".") p (by simpa [normVal] using hp)
        exact ⟨h2.1, le_trans h2.2 (ldFields_le_ld_vdict fs)⟩
      | vnull =>
        have hp2 : p = (pre ++ k, vnull) := by simpa [normVal] using hp
        subst hp2
        exact ⟨rfl, le_rfl⟩
      | vbool b =>
        have hp2 : p = (pre ++ k, vbool b) := by simpa [normVal] using hp
        subst hp2
        exact ⟨rfl, le_rfl⟩
      | vint m =>
        have hp2 : p = (pre ++ k, vint m) := by simpa [normVal] using hp
        subst hp2
        exact ⟨rfl, le_rfl⟩
      | vstr s =>
        have hp2 : p = (pre ++ k, vstr s) := by simpa [normVal] using hp
        subst hp2
        exact ⟨rfl, le_rfl⟩
      | vlist xs =>
        have hp2 : p = (pre ++ k, vlist xs) := by simpa [normVal] using hp
        subst hp2
        exact ⟨rfl, le_rfl⟩
    · intro fs hfs pre p hp
      cases fs with
      | nil => simp [normFields] at hp
      | cons q t =>
        obtain ⟨k1, v1⟩ := q
        rw [show normFields pre ((k1, v1) :: t) = normVal pre k1 v1 ++ normFields pre t
          from rfl] at hp
        rcases List.mem_append.mp hp with h | h
        · have hc : sizeOf ((k1, v1) :: t) = 1 + sizeOf (k1, v1) + sizeOf t := by simp
          have hq : sizeOf (k1, v1) = 1 + sizeOf k1 + sizeOf v1 := by simp
          have hs : sizeOf v1 ≤ n := by omega
          have h2 := ih.1 v1 hs pre k1 p h
          refine ⟨h2.1, le_trans h2.2 ?_⟩
          exact ldFields_mem_le _ (k1, v1) (List.mem_cons_self _ _)
        · have hc : sizeOf ((k1, v1) :: t) = 1 + sizeOf (k1, v1) + sizeOf t := by simp
          have hs : sizeOf t ≤ n := by
            have hq : sizeOf (k1, v1) = 1 + sizeOf k1 + sizeOf v1 := by simp
            omega
          have h2 := ih.2 t hs pre p h
          refine ⟨h2.1, le_trans h2.2 ?_⟩
          show ldFields t ≤ ldFields ((k1, v1) :: t)
          simp [ldFields, Nat.le_max_right]

theorem normFields_leaf (fs : List (String × JVal)) (pre : String)
    (p : String × JVal) (hp : p ∈ normFields pre fs) :
    isVDict p.2 = false ∧ ld p.2 ≤ ldFields fs :=
  (normVal_normFields_leaf (sizeOf fs)).2 fs le_rfl pre p hp

theorem rowExpand_leaf (c : String) (u : JVal) (fr : Row) (p : String × JVal)
    (hfr : fr ∈ rowExpand c u) (hp : p ∈ fr) :
    isVDict p.2 = false ∧ ld p.2 ≤ ld u := by
  cases u with
  | vdict fs =>
    have hfr2 : fr = prefixRow c (normFields "" fs) := by simpa [rowExpand] using hfr
    subst hfr2
    obtain ⟨q, hq, hpq⟩ := List.mem_map.mp hp
    have h2 := normFields_leaf fs "" q hq
    rw [← hpq]
    exact ⟨h2.1, le_trans h2.2 (ldFields_le_ld_vdict fs)⟩
  | vlist xs =>
    cases xs with
    | nil =>
      have hfr2 : fr = [(c, vlist [])] := by simpa [rowExpand] using hfr
      subst hfr2
      have hp2 : p = (c, vlist []) := by simpa using hp
      subst hp2
      exact ⟨rfl, le_rfl⟩
    | cons x t =>
      by_cases hx : isVDict x = true
      · have hfr2 : fr ∈ (x :: t).map (fun e => match e with
            | vdict fs => prefixRow c (normFields "" fs)
            | _ => ([] : Row)) := by
          simpa [rowExpand, hx] using hfr
        obtain ⟨e, he, hfe⟩ := List.mem_map.mp hfr2
        cases e with
        | vdict fs =>
          have hfr3 : fr = prefixRow c (normFields "" fs) := hfe.symm
          subst hfr3
          obtain ⟨q, hq, hpq⟩ := List.mem_map.mp hp
          have h2 := normFields_leaf fs "" q hq
          have h3 : ld (vdict fs) ≤ ldList (x :: t) := ldList_mem_le _ _ he
          have h4 : ldFields fs ≤ ld (vdict fs) := ldFields_le_ld_vdict fs
          have h5 : ld (vlist (x :: t)) = ldList (x :: t) + 1 := rfl
          rw [← hpq]
          exact ⟨h2.1, by show ld q.2 ≤ ld (vlist (x :: t)); omega⟩
        | vnull => rw [← hfe] at hp; simp at hp
        | vbool b => rw [← hfe] at hp; simp at hp
        | vint m => rw [← hfe] at hp; simp at hp
        | vstr s => rw [← hfe] at hp; simp at hp
        | vlist l => rw [← hfe] at hp; simp at hp
      · have hfr2 : fr = [(c, vlist (x :: t))] := by simpa [rowExpand, hx] using hfr
        subst hfr2
        have hp2 : p = (c, vlist (x :: t)) := by simpa using hp
        subst hp2
        exact ⟨rfl, le_rfl⟩
  | vnull =>
    have hfr2 : fr = [(c, vnull)] := by simpa [rowExpand] using hfr
    subst hfr2
    have hp2 : p = (c, vnull) := by simpa using hp
    subst hp2
    exact ⟨rfl, le_rfl⟩
  | vbool b =>
    have hfr2 : fr = [(c, vbool b)] := by simpa [rowExpand] using hfr
    subst hfr2
    have hp2 : p = (c, vbool b) := by simpa using hp
    subst hp2
    exact ⟨rfl, le_rfl⟩
  | vint m =>
    have hfr2 : fr = [(c, vint m)] := by simpa [rowExpand] using hfr
    subst hfr2
    have hp2 : p = (c, vint m) := by simpa using hp
    subst hp2
    exact ⟨rfl, le_rfl⟩
  | vstr s =>
    have hfr2 : fr = [(c, vstr s)] := by simpa [rowExpand] using hfr
    subst hfr2
    have hp2 : p = (c, vstr s) := by simpa using hp
    subst hp2
    exact ⟨rfl, le_rfl⟩

theorem expansion_bound (c : String) (v u : JVal) (fr : Row) (p : String × JVal)
    (hv : isVDict v = false) (hu : u ∈ explodeCells v) (hfr : fr ∈ rowExpand c u)
    (hp : p ∈ fr) : isVDict p.2 = false ∧ ld p.2 ≤ ld v - 1 := by
  have h1 := rowExpand_leaf c u fr p hfr hp
  refine ⟨h1.1, ?_⟩
  cases v with
  | vlist xs =>
    cases xs with
    | nil =>
      have hu2 : u = vnull := by simpa [explodeCells] using hu
      subst hu2
      simpa using h1.2
    | cons x t =>
      have hu2 : u ∈ x :: t := by simpa [explodeCells] using hu
      have h3 := ldList_mem_le (x :: t) u hu2
      have h4 : ld (vlist (x :: t)) = ldList (x :: t) + 1 := rfl
      omega
  | vdict fs => simp [isVDict] at hv
  | vnull =>
    have hu2 : u = vnull := by simpa [explodeCells] using hu
    subst hu2
    simpa using h1.2
  | vbool b =>
    have hu2 : u = vbool b := by simpa [explodeCells] using hu
    subst hu2
    simpa using h1.2
  | vint m =>
    have hu2 : u = vint m := by simpa [explodeCells] using hu
    subst hu2
    simpa using h1.2
  | vstr s =>
    have hu2 : u = vstr s := by simpa [explodeCells] using hu
    subst hu2
    simpa using h1.2

theorem explodeRow_cells (c : String) (r r2 : Row) (h : r2 ∈ explodeRow c r) :
    rowGet r2 c ∈ explodeCells (rowGet r c) ∧
    ∀ k, k ≠ c → rowGet r2 k = rowGet r k := by
  unfold explodeRow at h
  cases hc : rowGet r c with
  | vlist xs =>
    rw [hc] at h
    cases xs with
    | nil =>
      have h2 : r2 = rowSet r c vnull := by simpa using h
      subst h2
      constructor
      · rw [rowGet_rowSet_self r c vnull (by rw [hc]; exact fun he => JVal.noConfusion he)]
        exact List.mem_singleton.mpr rfl
      · exact fun k hk => rowGet_rowSet_ne r c k vnull hk
    | cons x t =>
      obtain ⟨u, hu, h2⟩ := List.mem_map.mp h
      subst h2
      constructor
      · rw [rowGet_rowSet_self r c u (by rw [hc]; exact fun he => JVal.noConfusion he)]
        exact hu
      · exact fun k hk => rowGet_rowSet_ne r c k u hk
  | vnull =>
    rw [hc] at h
    have h2 : r2 = r := by simpa using h
    subst h2
    rw [hc]
    exact ⟨List.mem_singleton.mpr rfl, fun k _ => rfl⟩
  | vbool b =>
    rw [hc] at h
    have h2 : r2 = r := by simpa using h
    subst h2
    rw [hc]
    exact ⟨List.mem_singleton.mpr rfl, fun k _ => rfl⟩
  | vint m =>
    rw [hc] at h
    have h2 : r2 = r := by simpa using h
    subst h2
    rw [hc]
    exact ⟨List.mem_singleton.mpr rfl, fun k _ => rfl⟩
  | vstr s =>
    rw [hc] at h
    have h2 : r2 = r := by simpa using h
    subst h2
    rw [hc]
    exact ⟨List.mem_singleton.mpr rfl, fun k _ => rfl⟩
  | vdict fs =>
    rw [hc] at h
    have h2 : r2 = r := by simpa using h
    subst h2
    rw [hc]
    exact ⟨List.mem_singleton.mpr rfl, fun k _ => rfl⟩

theorem alignConcat_mem (pad : Row) :
    ∀ (rs ls : List Row) (row : Row), row ∈ alignConcat pad ls rs →
      (∃ l ∈ ls, ∃ fr ∈ rs, row = l ++ fr) ∨ (∃ fr ∈ rs, row = pad ++ fr) ∨
        row ∈ ls := by
  intro rs
  induction rs with
  | nil =>
    intro ls row h
    have h2 : alignConcat pad ls [] = ls := by cases ls <;> rfl
    rw [h2] at h
    exact Or.inr (Or.inr h)
  | cons fr rs2 ih =>
    intro ls row h
    cases ls with
    | nil =>
      rw [show alignConcat pad [] (fr :: rs2) = (pad ++ fr) :: alignConcat pad [] rs2
        from rfl] at h
      rcases List.mem_cons.mp h with h2 | h2
      · exact Or.inr (Or.inl ⟨fr, List.mem_cons_self _ _, h2⟩)
      · rcases ih [] row h2 with ⟨l, hl, _⟩ | ⟨fr2, hfr2, he⟩ | h3
        · simp at hl
        · exact Or.inr (Or.inl ⟨fr2, List.mem_cons_of_mem _ hfr2, he⟩)
        · simp at h3
    | cons l ls2 =>
      rw [alignConcat_cons] at h
      rcases List.mem_cons.mp h with h2 | h2
      · exact Or.inl ⟨l, List.mem_cons_self _ _, fr, List.mem_cons_self _ _, h2⟩
      · rcases ih ls2 row h2 with ⟨l2, hl2, fr2, hfr2, he⟩ | ⟨fr2, hfr2, he⟩ | h3
        · exact Or.inl ⟨l2, List.mem_cons_of_mem _ hl2, fr2,
            List.mem_cons_of_mem _ hfr2, he⟩
        · exact Or.inr (Or.inl ⟨fr2, List.mem_cons_of_mem _ hfr2, he⟩)
        · exact Or.inr (Or.inr (List.mem_cons_of_mem _ h3))

theorem rowGet_append_cases (a b : Row) (k : String) :
    (rowGet (a ++ b) k = rowGet a k ∧ ∃ p ∈ a, p.1 = k) ∨
    (rowGet (a ++ b) k = rowGet b k ∧ ∀ p ∈ a, p.1 ≠ k) := by
  induction a with
  | nil => exact Or.inr ⟨rfl, by simp⟩
  | cons q t ih =>
    obtain ⟨k1, v1⟩ := q
    by_cases hk : k1 = k
    · refine Or.inl ⟨?_, (k1, v1), List.mem_cons_self _ _, hk⟩
      show (if k1 = k then v1 else rowGet (t ++ b) k) =
        if k1 = k then v1 else rowGet t k
      rw [if_pos hk, if_pos hk]
    · have hred1 : rowGet (((k1, v1) :: t) ++ b) k = rowGet (t ++ b) k := by
        show (if k1 = k then v1 else rowGet (t ++ b) k) = _
        rw [if_neg hk]
      have hred2 : rowGet ((k1, v1) :: t) k = rowGet t k := by
        show (if k1 = k then v1 else rowGet t k) = _
        rw [if_neg hk]
      rcases ih with ⟨h1, p, hp, hpk⟩ | ⟨h1, h2⟩
      · exact Or.inl ⟨hred1.trans (h1.trans hred2.symm), p,
          List.mem_cons_of_mem _ hp, hpk⟩
      · refine Or.inr ⟨hred1.trans h1, ?_⟩
        intro p hp
        rcases List.mem_cons.mp hp with h3 | h3
        · exact fun hpk => hk (by rw [h3] at hpk; exact hpk)
        · exact h2 p h3

theorem rowErase_mem (r : Row) (c : String) (p : String × JVal)
    (hp : p ∈ rowErase r c) : p ∈ r ∧ p.1 ≠ c := by
  have h := List.mem_filter.mp hp
  exact ⟨h.1, by simpa using h.2⟩

theorem rowGet_nullPad (df : DF) (c k : String) :
    rowGet (nullPad df c) k = vnull := by
  rcases rowGet_mem_or_null (nullPad df c) k with h | ⟨p, hp, _, h2⟩
  · exact h
  · obtain ⟨k2, _, he⟩ := List.mem_map.mp hp
    rw [h2, ← he]

theorem flatten_json_cells (df : DF) (c : String) (row : Row)
    (hrow : row ∈ flatten_json df c) (k : String) :
    rowGet row k = vnull ∨
    (k ≠ c ∧ ∃ r0 ∈ df, rowGet row k = rowGet r0 k) ∨
    (∃ r0 ∈ df, ∃ u ∈ explodeCells (rowGet r0 c), ∃ fr ∈ rowExpand c u,
      ∃ p ∈ fr, rowGet row k = p.2) := by
  have hrow2 : row ∈ alignConcat (nullPad df c)
      ((explodeCol df c).map (fun r => rowErase r c))
      ((explodeCol df c).flatMap (fun r => rowExpand c (rowGet r c))) := hrow
  have hfrcase : ∀ fr : Row,
      fr ∈ (explodeCol df c).flatMap (fun r => rowExpand c (rowGet r c)) →
      rowGet fr k = vnull ∨
      (∃ r0 ∈ df, ∃ u ∈ explodeCells (rowGet r0 c), ∃ fr2 ∈ rowExpand c u,
        ∃ p ∈ fr2, rowGet fr k = p.2) := by
    intro fr hfr
    rcases rowGet_mem_or_null fr k with h2 | ⟨p, hp, _, h2⟩
    · exact Or.inl h2
    · obtain ⟨r3, hr3, hfr3⟩ := List.mem_flatMap.mp hfr
      obtain ⟨r0, hr0, hre⟩ := List.mem_flatMap.mp hr3
      exact Or.inr ⟨r0, hr0, rowGet r3 c, (explodeRow_cells c r0 r3 hre).1,
        fr, hfr3, p, hp, h2⟩
  rcases alignConcat_mem _ _ _ _ hrow2 with ⟨l, hl, fr, hfr, he⟩ | ⟨fr, hfr, he⟩ | hin
  · subst he
    rcases rowGet_append_cases l fr k with ⟨h1, p, hp, hpk⟩ | ⟨h1, _⟩
    · obtain ⟨r2, hr2, hl2⟩ := List.mem_map.mp hl
      rw [← hl2] at h1 hp
      have hkc : k ≠ c := by
        obtain ⟨_, hpc⟩ := rowErase_mem r2 c p hp
        rw [← hpk]
        exact hpc
      obtain ⟨r0, hr0, hre⟩ := List.mem_flatMap.mp hr2
      refine Or.inr (Or.inl ⟨hkc, r0, hr0, ?_⟩)
      rw [← hl2]
      rw [h1, rowGet_rowErase_ne r2 c k hkc,
        (explodeRow_cells c r0 r2 hre).2 k hkc]
    · rw [h1]
      rcases hfrcase fr hfr with h | h
      · exact Or.inl h
      · exact Or.inr (Or.inr h)
  · subst he
    rcases rowGet_append_cases (nullPad df c) fr k with ⟨h1, _, _, _⟩ | ⟨h1, _⟩
    · rw [h1, rowGet_nullPad]
      exact Or.inl rfl
    · rw [h1]
      rcases hfrcase fr hfr with h | h
      · exact Or.inl h
      · exact Or.inr (Or.inr h)
  · obtain ⟨r2, hr2, he⟩ := List.mem_map.mp hin
    by_cases hkc : k = c
    · subst hkc
      rw [← he]
      rcases rowGet_mem_or_null (rowErase r2 k) k with h | ⟨p, hp, hpk, _⟩
      · exact Or.inl h
      · obtain ⟨_, hpc⟩ := rowErase_mem r2 k p hp
        exact absurd hpk hpc
    · obtain ⟨r0, hr0, hre⟩ := List.mem_flatMap.mp hr2
      refine Or.inr (Or.inl ⟨hkc, r0, hr0, ?_⟩)
      rw [← he, rowGet_rowErase_ne r2 c k hkc,
        (explodeRow_cells c r0 r2 hre).2 k hkc]

theorem flatten_json_step (df : DF) (c : String) (M : Nat) (S : List String)
    (hnd : NoDictCells df)
    (hS : ∀ k, (k = c ∨ k ∈ S) → ∀ r ∈ df, ld (rowGet r k) ≤ M)
    (hout : ∀ k, ¬(k = c ∨ k ∈ S) → ∀ r ∈ df, ld (rowGet r k) ≤ M - 1) :
    NoDictCells (flatten_json df c) ∧
    (∀ k ∈ S, ∀ r ∈ flatten_json df c, ld (rowGet r k) ≤ M) ∧
    (∀ k, k ∉ S → ∀ r ∈ flatten_json df c, ld (rowGet r k) ≤ M - 1) := by
  have key : ∀ row ∈ flatten_json df c, ∀ k,
      rowGet row k = vnull ∨ (k ≠ c ∧ ∃ r0 ∈ df, rowGet row k = rowGet r0 k) ∨
      (isVDict (rowGet row k) = false ∧ ld (rowGet row k) ≤ M - 1) := by
    intro row hrow k
    rcases flatten_json_cells df c row hrow k with h | h |
      ⟨r0, hr0, u, hu, fr, hfr, p, hp, he⟩
    · exact Or.inl h
    · exact Or.inr (Or.inl h)
    · right; right
      have hb := expansion_bound c (rowGet r0 c) u fr p (hnd r0 hr0 c) hu hfr hp
      rw [he]
      exact ⟨hb.1, le_trans hb.2
        (Nat.sub_le_sub_right (hS c (Or.inl rfl) r0 hr0) 1)⟩
  refine ⟨?_, ?_, ?_⟩
  · intro r hr k
    rcases key r hr k with h | ⟨_, r0, hr0, he⟩ | ⟨h, _⟩
    · rw [h]
      rfl
    · rw [he]
      exact hnd r0 hr0 k
    · exact h
  · intro k hk r hr
    rcases key r hr k with h | ⟨_, r0, hr0, he⟩ | ⟨_, h⟩
    · rw [h]
      exact Nat.zero_le M
    · rw [he]
      exact hS k (Or.inr hk) r0 hr0
    · exact le_trans h (Nat.sub_le M 1)
  · intro k hk r hr
    rcases key r hr k with h | ⟨hkc, r0, hr0, he⟩ | ⟨_, h⟩
    · rw [h]
      exact Nat.zero_le _
    · rw [he]
      exact hout k (fun hor => hor.elim hkc hk) r0 hr0
    · exact h

theorem foldl_flatten_bound : ∀ (S : List String) (df : DF) (M : Nat),
    NoDictCells df →
    (∀ k ∈ S, ∀ r ∈ df, ld (rowGet r k) ≤ M) →
    (∀ k, k ∉ S → ∀ r ∈ df, ld (rowGet r k) ≤ M - 1) →
    NoDictCells (S.foldl flatten_json df) ∧
    (∀ k, ∀ r ∈ S.foldl flatten_json df, ld (rowGet r k) ≤ M - 1) := by
  intro S
  induction S with
  | nil =>
    intro df M h1 _ h3
    exact ⟨h1, fun k r hr => h3 k (by simp) r hr⟩
  | cons c S2 ih =>
    intro df M h1 h2 h3
    have hstep := flatten_json_step df c M S2 h1
      (fun k hk r hr => h2 k (by
        rcases hk with h | h
        · exact h ▸ List.mem_cons_self _ _
        · exact List.mem_cons_of_mem _ h) r hr)
      (fun k hk r hr => h3 k (by
        intro hmem
        rcases List.mem_cons.mp hmem with h | h
        · exact hk (Or.inl h)
        · exact hk (Or.inr h)) r hr)
    exact ih (flatten_json df c) M hstep.1 hstep.2.1 hstep.2.2

theorem flattenPass_bound (df : DF) (hnd : NoDictCells df) :
    NoDictCells (flattenPass df) ∧
    ∀ k, ∀ r ∈ flattenPass df, ld (rowGet r k) ≤ maxListLd df - 1 := by
  apply foldl_flatten_bound (listColumns df) df (maxListLd df) hnd
  · intro k hk r hr
    have h1 : ld (rowGet r k) ∈ df.map (fun r2 => ld (rowGet r2 k)) :=
      List.mem_map.mpr ⟨r, hr, rfl⟩
    have h2 := le_foldr_max _ _ h1
    have h3 : ((df.map (fun r2 => ld (rowGet r2 k))).foldr max 0) ∈
        (listColumns df).map (fun c =>
          (df.map (fun r2 => ld (rowGet r2 c))).foldr max 0) :=
      List.mem_map.mpr ⟨k, hk, rfl⟩
    exact le_trans h2 (le_foldr_max _ _ h3)
  · intro k hk r hr
    have hnl : isVList (rowGet r k) = false := by
      rcases Bool.eq_false_or_eq_true (isVList (rowGet r k)) with h | h
      case inr => exact h
      exfalso
      have hcol : k ∈ dfColumns df := by
        rcases rowGet_mem_or_null r k with hn | ⟨p, hp, hpk, _⟩
        · rw [hn] at h
          simp [isVList] at h
        · exact hpk ▸ key_mem_dfColumns df r p hr hp
      exact hk (by
        rw [listColumns, List.mem_filter]
        exact ⟨hcol, by rw [List.any_eq_true]; exact ⟨r, hr, h⟩⟩)
    rw [ld_of_not_list_dict _ hnl (hnd r hr k)]
    exact Nat.zero_le _

theorem listColumns_eq_nil_of_bound (df : DF)
    (hb : ∀ k, ∀ r ∈ df, ld (rowGet r k) ≤ 0) : listColumns df = [] := by
  rw [listColumns, List.filter_eq_nil_iff]
  intro c hc
  intro hcon
  rw [List.any_eq_true] at hcon
  obtain ⟨r, hr, hl⟩ := hcon
  have h1 := hb c r hr
  have h2 := one_le_ld_of_isVList _ hl
  omega

theorem maxListLd_le_of_bound (df : DF) (b : Nat)
    (hb : ∀ k, ∀ r ∈ df, ld (rowGet r k) ≤ b) : maxListLd df ≤ b := by
  apply foldr_max_le
  intro a ha
  obtain ⟨c, hc, he⟩ := List.mem_map.mp ha
  subst he
  apply foldr_max_le
  intro a2 ha2
  obtain ⟨r, hr, he2⟩ := List.mem_map.mp ha2
  subst he2
  exact hb c r hr

theorem rf_pass_nil (fuel : Nat) (df : DF) (depth : Option Nat) (cur : Nat)
    (h : listColumns (flattenPass df) = []) :
    recursively_flatten fuel df depth cur = flattenPass df := by
  cases depth with
  | none =>
    cases fuel with
    | zero =>
      show (if listColumns (flattenPass df) = [] then flattenPass df
        else flattenPass df) = flattenPass df
      exact ite_self _
    | succ f =>
      show (if listColumns (flattenPass df) = [] then flattenPass df
        else recursively_flatten f (flattenPass df) none (cur + 1)) = flattenPass df
      rw [if_pos h]
  | some d =>
    cases fuel with
    | zero =>
      show (if decide (cur < d) = true then
          (if listColumns (flattenPass df) = [] then flattenPass df
            else flattenPass df) else flattenPass df) = flattenPass df
      rw [ite_self, ite_self]
    | succ f =>
      show (if decide (cur < d) = true then
          (if listColumns (flattenPass df) = [] then flattenPass df
            else recursively_flatten f (flattenPass df) (some d) (cur + 1))
        else flattenPass df) = flattenPass df
      simp [h]

theorem rf_none_step (f : Nat) (df : DF) (cur : Nat)
    (h : ¬ listColumns (flattenPass df) = []) :
    recursively_flatten (f + 1) df none cur =
      recursively_flatten f (flattenPass df) none (cur + 1) := by
  show (if listColumns (flattenPass df) = [] then flattenPass df
    else recursively_flatten f (flattenPass df) none (cur + 1)) =
    recursively_flatten f (flattenPass df) none (cur + 1)
  rw [if_neg h]

theorem rf_some_step (f : Nat) (df : DF) (d cur : Nat) (hcd : cur < d)
    (h : ¬ listColumns (flattenPass df) = []) :
    recursively_flatten (f + 1) df (some d) cur =
      recursively_flatten f (flattenPass df) (some d) (cur + 1) := by
  show (if decide (cur < d) = true then
      (if listColumns (flattenPass df) = [] then flattenPass df
        else recursively_flatten f (flattenPass df) (some d) (cur + 1))
    else flattenPass df) =
    recursively_flatten f (flattenPass df) (some d) (cur + 1)
  rw [if_pos (by simpa using hcd), if_neg h]

theorem rf_none_no_list : ∀ (fuel : Nat) (df : DF) (cur : Nat),
    NoDictCells df → maxListLd df ≤ fuel + 1 →
    listColumns (recursively_flatten fuel df none cur) = [] := by
  intro fuel
  induction fuel with
  | zero =>
    intro df cur hnd hM
    have hp := flattenPass_bound df hnd
    have h0 : ∀ k, ∀ r ∈ flattenPass df, ld (rowGet r k) ≤ 0 := by
      intro k r hr
      have h2 := hp.2 k r hr
      omega
    have hnil := listColumns_eq_nil_of_bound _ h0
    rw [rf_pass_nil 0 df none cur hnil]
    exact hnil
  | succ f ih =>
    intro df cur hnd hM
    by_cases h : listColumns (flattenPass df) = []
    · rw [rf_pass_nil (f + 1) df none cur h]
      exact h
    · rw [rf_none_step f df cur h]
      have hp := flattenPass_bound df hnd
      apply ih (flattenPass df) (cur + 1) hp.1
      have h3 := maxListLd_le_of_bound (flattenPass df) (maxListLd df - 1) hp.2
      omega

theorem rf_fixed (df : DF) (h : listColumns df = []) :
    ∀ (fuel : Nat) (depth : Option Nat) (cur : Nat),
      recursively_flatten fuel df depth cur = df := by
  intro fuel depth cur
  have hpass : flattenPass df = df := by
    rw [flattenPass, h]
    rfl
  have h2 : listColumns (flattenPass df) = [] := by
    rw [hpass]
    exact h
  rw [rf_pass_nil fuel df depth cur h2, hpass]

theorem rf_some_no_list : ∀ (fuel : Nat) (df : DF) (d cur : Nat),
    NoDictCells df → maxListLd df ≤ (d - cur) + 1 → d - cur ≤ fuel →
    listColumns (recursively_flatten fuel df (some d) cur) = [] := by
  intro fuel
  induction fuel with
  | zero =>
    intro df d cur hnd hM _
    have hp := flattenPass_bound df hnd
    have h0 : ∀ k, ∀ r ∈ flattenPass df, ld (rowGet r k) ≤ 0 := by
      intro k r hr
      have h2 := hp.2 k r hr
      omega
    have hnil := listColumns_eq_nil_of_bound _ h0
    rw [rf_pass_nil 0 df (some d) cur hnil]
    exact hnil
  | succ f ih =>
    intro df d cur hnd hM hf
    by_cases h : listColumns (flattenPass df) = []
    · rw [rf_pass_nil (f + 1) df (some d) cur h]
      exact h
    · have hcd : cur < d := by
        by_contra hc
        have hp := flattenPass_bound df hnd
        have h0 : ∀ k, ∀ r ∈ flattenPass df, ld (rowGet r k) ≤ 0 := by
          intro k r hr
          have h2 := hp.2 k r hr
          omega
        exact h (listColumns_eq_nil_of_bound _ h0)
      rw [rf_some_step f df d cur hcd h]
      have hp := flattenPass_bound df hnd
      apply ih (flattenPass df) d (cur + 1) hp.1
      · have h3 := maxListLd_le_of_bound (flattenPass df) (maxListLd df - 1) hp.2
        omega
      · omega

/-- Counterexample to C3 as stated: a table with a record-valued (dict)
column is a fixed point of the flattener — the code only detects
list/array columns, so the dict column is never expanded — yet it
still contains a complex column in the specification's sense. -/
theorem c3_counterexample :
    recursively_flatten 1 [[("a", vdict [("b", vint 1)])]] none 0 =
      [[("a", vdict [("b", vint 1)])]] ∧
    complexColumns [[("a", vdict [("b", vint 1)])]] = ["a"] := by
  exact ⟨rfl, rfl⟩

/-- C3 (amended): for a table with no top-level record cells (as the
ingestion stage produces, since json_normalize dissolves records into
scalar columns), the flattener with unbounded depth and fuel at least
the table's list-nesting measure reaches a result with no list
columns, that result is a fixed point of the flattener, and the
depth-bounded variant reaches the same list-free state whenever the
depth bound is at least the nesting measure minus one — i.e. the
number of passes is bounded by the structure's maximum nesting
depth. -/
theorem c3_flattener_termination (df : DF) (fuel : Nat)
    (hnd : NoDictCells df) (hfuel : maxListLd df ≤ fuel + 1) :
    listColumns (recursively_flatten fuel df none 0) = [] ∧
    recursively_flatten fuel (recursively_flatten fuel df none 0) none 0 =
      recursively_flatten fuel df none 0 ∧
    (∀ d, maxListLd df ≤ d + 1 → d ≤ fuel →
      listColumns (recursively_flatten fuel df (some d) 0) = []) := by
  have h1 := rf_none_no_list fuel df 0 hnd hfuel
  refine ⟨h1, rf_fixed _ h1 fuel none 0, ?_⟩
  intro d hd hdf
  exact rf_some_no_list fuel df d 0 hnd (by simpa using hd) (by omega)

/-- Witness for C3 (amended) on a three-level nested structure: a list
of records holding a list; its nesting measure is 3 and fuel 2 (three
passes) flattens it completely. -/
theorem c3_flattener_termination_witness :
    listColumns (recursively_flatten 2
      [[("b", vlist [vdict [("c", vlist [vint 1])]])]] none 0) = [] ∧
    maxListLd [[("b", vlist [vdict [("c", vlist [vint 1])]])]] = 3 := by
  have h := c3_flattener_termination
    [[("b", vlist [vdict [("c", vlist [vint 1])]])]] 2
    (noDictCells_of_pairs _ (by decide)) (by decide)
  exact ⟨h.1, by decide⟩

/-- Counterexample to C4 as stated: a column whose values include a
nested-record (dict) value is not identified as a complex column —
the detection of process_data.py lines 143 and 151 tests only
isinstance(list, np.ndarray). -/
theorem c4_counterexample :
    ¬ (∀ (df : DF) (c : String), c ∈ dfColumns df →
        (∃ r ∈ df, isVList (rowGet r c) = true ∨ isVDict (rowGet r c) = true) →
        c ∈ listColumns df) := by
  intro hcl
  have h := hcl [[("g", vdict [("h", vbool true)])]] "g"
    (List.mem_singleton.mpr rfl)
    ⟨[("g", vdict [("h", vbool true)])], List.mem_singleton.mpr rfl, Or.inr rfl⟩
  have h2 : listColumns [[("g", vdict [("h", vbool true)])]] = ([] : List String) :=
    rfl
  rw [h2] at h
  simp at h

/-- C4 (amended): each flattening pass identifies exactly the columns
holding at least one list/array cell (dict-only columns are not
identified); and after the flattener terminates normally on a table
without top-level record cells, the result has no list-type columns. -/
theorem c4_complex_column_identification :
    (∀ (df : DF) (c : String), c ∈ listColumns df ↔
      c ∈ dfColumns df ∧ ∃ r ∈ df, isVList (rowGet r c) = true) ∧
    (∀ (df : DF) (fuel : Nat), NoDictCells df → maxListLd df ≤ fuel + 1 →
      listColumns (recursively_flatten fuel df none 0) = []) := by
  constructor
  · intro df c
    simp [listColumns, List.mem_filter, List.any_eq_true]
  · exact fun df fuel h1 h2 => rf_none_no_list fuel df 0 h1 h2

/-- Witness for C4 (amended): the list column is identified, the scalar
column is not, and one run flattens the table list-free. -/
theorem c4_complex_column_identification_witness :
    "b" ∈ listColumns [[("b", vlist [vint 1]), ("d", vint 2)]] ∧
    listColumns (recursively_flatten 1
      [[("b", vlist [vint 1]), ("d", vint 2)]] none 0) = [] := by
  constructor
  · exact (c4_complex_column_identification.1 _ "b").mpr
      ⟨by decide, ⟨[("b", vlist [vint 1]), ("d", vint 2)],
        List.mem_singleton.mpr rfl, rfl⟩⟩
  · exact c4_complex_column_identification.2 _ 1
      (noDictCells_of_pairs _ (by decide)) (by decide)
